import Mathlib

/-!
# Verification of the wiki-quiz-master core logic

A shallow embedding, in Lean 4, of the nontrivial logic of the
`wiki-quiz-master` repository:

* `src/wikiService.ts` — `parseWikiUrl`, the response handling of
  `fetchWikiArticle`, and `generateQuizFromExtract`;
* `src/App.tsx` — `saveToHistory`.

JavaScript strings are embedded as `List Char` (`Str`).  The embedding is
ASCII-faithful: JavaScript's Unicode-aware pieces (`toLowerCase`, UTF-16
lengths, the full `\s` class, multi-byte percent-escapes) agree with the
model on ASCII data, which is noted at each definition concerned.
`Math.random()`-driven choices are threaded through an explicit oracle
`rng : Nat → Nat`: each draw `Math.floor(Math.random() * len)` becomes
`rng k % len` for a fresh counter value `k`, so universally quantifying
over `rng` covers every sequence of draws.  The distractor-sampling
`while` loop of `generateQuizFromExtract` is not structurally terminating
(its candidate array is never shrunk), so it is embedded with explicit
fuel and an `Option` result, `none` marking a run that did not finish
within the given fuel.
-/

/-- JavaScript strings, embedded as lists of characters. -/
abbrev Str := List Char

/-- `s.toLowerCase()`.  `Char.toLower` lowercases exactly ASCII `A`–`Z`,
which matches JavaScript on ASCII data. -/
def lowerStr (s : Str) : Str := s.map Char.toLower

/-- Is `a` a (contiguous) prefix of `b`? -/
def isPrefixList : Str → Str → Bool
  | [], _ => true
  | _ :: _, [] => false
  | a :: as, b :: bs => a == b && isPrefixList as bs

/-- `hay.includes(needle)`: does `needle` occur contiguously in `hay`? -/
def containsSub (needle : Str) : Str → Bool
  | [] => isPrefixList needle []
  | c :: cs => isPrefixList needle (c :: cs) || containsSub needle cs

/-- JavaScript `String.prototype.split` with a single-character-class
separator (e.g. `split('\n')`, `split(' ')`, `split(/[.!?]/)`): cut at
every separator character, keeping empty pieces. -/
def splitOnPred (p : Char → Bool) : Str → List Str
  | [] => [[]]
  | c :: cs =>
    if p c then [] :: splitOnPred p cs
    else
      match splitOnPred p cs with
      | [] => [[c]]
      | w :: ws => (c :: w) :: ws

/-- `split(sep)` for a one-character separator. -/
def splitOnChar (sep : Char) (s : Str) : List Str := splitOnPred (fun c => c == sep) s

/-- `s.trim()` (ASCII whitespace). -/
def trimStr (s : Str) : Str :=
  ((s.dropWhile Char.isWhitespace).reverse.dropWhile Char.isWhitespace).reverse

/-- The trailing-punctuation characters stripped by `replace(/[,.;]$/, '')`. -/
def isPunct (c : Char) : Bool := c == ',' || c == '.' || c == ';'

/-- `w.replace(/[,.;]$/, '')`: drop one trailing `,`/`.`/`;` if present. -/
def stripTrailing (s : Str) : Str :=
  match s.getLast? with
  | some c => if isPunct c then s.dropLast else s
  | none => s

/-- `hay.replace(needle, repl)` for plain-string `needle`: replace the first
occurrence only (JavaScript semantics; the replacement used by the code has
no `$` patterns). -/
def replaceFirstL (needle repl : Str) : Str → Str
  | [] => if isPrefixList needle [] then repl else []
  | c :: cs =>
    if isPrefixList needle (c :: cs) then repl ++ (c :: cs).drop needle.length
    else c :: replaceFirstL needle repl cs

/-! ## The quiz generator (`generateQuizFromExtract`, wikiService.ts 55–108) -/

/-- The `WikiQuizQuestion` interface of wikiService.ts. -/
structure WikiQuizQuestion where
  question : Str
  options : List Str
  answer : Str
deriving DecidableEq, Repr

/-- The blank marker: seven underscores. -/
def BLANK : Str := "_______".data

/-- One random draw: `arr[Math.floor(Math.random() * arr.length)]`,
oracle-driven.  Only ever used on nonempty lists, mirroring the source's
guards. -/
def pickD (rng : Nat → Nat) (k : Nat) (l : List Str) : Str :=
  l.getD (rng k % l.length) []

/-- Lines 56–60: paragraphs over 100 chars, split to sentences on `.!?`,
kept when the trimmed length is strictly between 50 and 200. -/
def sentencePool (extract : Str) : List Str :=
  let paragraphs := (splitOnChar '\n' extract).filter (fun p => 100 < (trimStr p).length)
  (paragraphs.flatMap (fun p => splitOnPred (fun c => c == '.' || c == '!' || c == '?') p)).filter
    (fun s => 50 < (trimStr s).length && (trimStr s).length < 200)

/-- `title.toLowerCase().split(' ')[0]` (line 73). -/
def titleKey (title : Str) : Str := (splitOnChar ' ' (lowerStr title)).headD []

/-- `/^[A-Z]/.test(w)` (line 74). -/
def isCapStart (w : Str) : Bool :=
  match w with
  | [] => false
  | c :: _ => 65 ≤ c.toNat && c.toNat ≤ 90

/-- Lines 71–75: preferred target words — longer than 5 chars, not
containing the first title word (case-insensitively), capitalized. -/
def preferredWords (title trimmed : Str) : List Str :=
  (splitOnChar ' ' trimmed).filter (fun w =>
    5 < w.length &&
    !(containsSub (titleKey title) (lowerStr w)) &&
    isCapStart w)

/-- Line 77: fallback target words — longer than 6 chars, unfiltered. -/
def fallbackWords (trimmed : Str) : List Str :=
  (splitOnChar ' ' trimmed).filter (fun w => 6 < w.length)

/-- Line 78: `words.length > 0 ? words : fallbackWords`. -/
def targetWordsOf (title trimmed : Str) : List Str :=
  let words := preferredWords title trimmed
  if 0 < words.length then words else fallbackWords trimmed

/-- Line 85: whole-extract tokens longer than 5 chars that are not
case-insensitively equal to the answer. -/
def allWordsOf (extract target : Str) : List Str :=
  (splitOnPred Char.isWhitespace extract).filter
    (fun w => 5 < w.length && !(lowerStr w == lowerStr target))

/-- Lines 88–93: the distractor-sampling `while` loop.  The source never
removes candidates from `allWords`, so the loop has no termination
measure; it is embedded with fuel, `none` marking a run that did not
finish.  `k` is the oracle counter; the returned counter accounts for the
draws consumed. -/
def sampleLoop (aw : List Str) (rng : Nat → Nat) : Nat → Nat → List Str → Option (List Str × Nat)
  | 0, k, options =>
    if options.length < 4 && 0 < aw.length then none else some (options, k)
  | fuel + 1, k, options =>
    if options.length < 4 && 0 < aw.length then
      let fake := stripTrailing (pickD rng k aw)
      if options.any (fun o => lowerStr o == lowerStr fake) then
        sampleLoop aw rng fuel (k + 1) options
      else
        sampleLoop aw rng fuel (k + 1) (options ++ [fake])
    else some (options, k)

/-- `"Option " + options.length` (line 97). -/
def optionLabel (n : Nat) : Str := "Option ".data ++ (Nat.repr n).data

/-- The body of the padding loop, fuelled: each pass appends one label
while fewer than four options are present.  Four passes always suffice,
so `padGo 4` is exactly the source's `while` loop. -/
def padGo : Nat → List Str → List Str
  | 0, options => options
  | n + 1, options =>
    if options.length < 4 then padGo n (options ++ [optionLabel options.length])
    else options

/-- Lines 96–98: pad the option list with `"Option N"` placeholders up to
four entries. -/
def padOptions (options : List Str) : List Str := padGo 4 options

/-- `arr.sort(() => Math.random() - 0.5)` produces some data-independent
reordering; modelled by oracle-driven selection without replacement, so
every permutation is reachable over all oracles. -/
def shuffleGo (rng : Nat → Nat) : Nat → Nat → List Str → List Str
  | _, 0, l => l
  | _, _ + 1, [] => []
  | k, fuel + 1, a :: l =>
    let i := rng k % (a :: l).length
    (a :: l).getD i [] :: shuffleGo rng (k + 1) fuel ((a :: l).eraseIdx i)

/-- Shuffle a whole list, consuming `l.length` oracle draws. -/
def shuffleStr (rng : Nat → Nat) (k : Nat) (l : List Str) : List Str :=
  shuffleGo rng k l.length l

/-- Lines 66–104: the `for (const sentence of pool)` loop.  Processes the
(already shuffled) sentence list, accumulating at most five questions;
`none` propagates a distractor-sampling run that did not finish. -/
def genLoop (rng : Nat → Nat) (title extract : Str) (fuel : Nat) :
    List Str → Nat → List WikiQuizQuestion → Option (List WikiQuizQuestion)
  | [], _, quiz => some quiz
  | sentence :: rest, k, quiz =>
    if 5 ≤ quiz.length then some quiz
    else
      let trimmed := trimStr sentence
      let targetWords := targetWordsOf title trimmed
      if 0 < targetWords.length then
        let target := stripTrailing (pickD rng k targetWords)
        let question := replaceFirstL target BLANK trimmed
        let allWords := allWordsOf extract target
        match sampleLoop allWords rng fuel (k + 1) [target] with
        | none => none
        | some (opts, k') =>
          let padded := padOptions opts
          genLoop rng title extract fuel rest (k' + padded.length)
            (quiz ++ [⟨question, shuffleStr rng k' padded, target⟩])
      else
        genLoop rng title extract fuel rest k quiz

/-- `generateQuizFromExtract(title, extract)` (lines 55–108), oracle- and
fuel-parametrised. -/
def generateQuizFromExtract (rng : Nat → Nat) (fuel : Nat) (title extract : Str) :
    Option (List WikiQuizQuestion) :=
  let pool := sentencePool extract
  genLoop rng title extract fuel (shuffleStr rng 0 pool) pool.length []

/-! ## URL parsing (`parseWikiUrl`, wikiService.ts 9–26)

The source builds on the platform's WHATWG `URL` and `decodeURIComponent`.
Those builtins are modelled below for the http/https fragment the code can
meet, restricted to inputs whose parsing needs no normalisation: the model
rejects (returns `none` for) URLs with userinfo, ports, non-ASCII or
percent-encoded hosts, characters a real parser would percent-encode, and
`.`/`..` path segments.  On the accepted fragment the model agrees with
the standard behaviour. -/

/-- The result fields of `new URL(...)` the code reads. -/
structure UrlObj where
  hostname : Str
  pathname : Str
  search : Str
deriving DecidableEq, Repr

/-- Characters ending the authority section. -/
def isAuthEnd (c : Char) : Bool := c == '/' || c == '?' || c == '#'

/-- Host characters accepted by the model: ASCII letters, digits, `-`,
`.`, `_`. -/
def hostChar (c : Char) : Bool :=
  (65 ≤ c.toNat && c.toNat ≤ 90) || (97 ≤ c.toNat && c.toNat ≤ 122) ||
  (48 ≤ c.toNat && c.toNat ≤ 57) || c == '-' || c == '.' || c == '_'

/-- Path characters that a WHATWG parser serialises unchanged: printable
ASCII minus `"#<>?\^`, backquote, braces and bar (codes 34, 35, 60, 62,
63, 92, 94, 96, 123, 124, 125). -/
def pathChar (c : Char) : Bool :=
  let n := c.toNat
  33 ≤ n && n ≤ 126 &&
    !(n == 34 || n == 35 || n == 60 || n == 62 || n == 63 ||
      n == 92 || n == 94 || n == 96 || n == 123 || n == 124 || n == 125)

/-- Query characters serialised unchanged: printable ASCII minus
`"#<>` and the apostrophe (codes 34, 35, 39, 60, 62). -/
def queryChar (c : Char) : Bool :=
  let n := c.toNat
  33 ≤ n && n ≤ 126 && !(n == 34 || n == 35 || n == 39 || n == 60 || n == 62)

/-- Model of `new URL(s)` for http/https (see section comment): `none`
models a thrown `TypeError` (or a model restriction). -/
def parseURL (s : Str) : Option UrlObj :=
  let afterScheme : Option Str :=
    if isPrefixList "https://".data s then some (s.drop 8)
    else if isPrefixList "http://".data s then some (s.drop 7)
    else none
  match afterScheme with
  | none => none
  | some rest =>
    let authority := rest.takeWhile (fun c => !isAuthEnd c)
    let afterAuth := rest.drop authority.length
    if authority.isEmpty then none
    else if !authority.all hostChar then none
    else
      let hostname := lowerStr authority
      let path := afterAuth.takeWhile (fun c => !(c == '?' || c == '#'))
      let afterPath := afterAuth.drop path.length
      let pathname := if path.isEmpty then ['/'] else path
      if !pathname.all pathChar then none
      else if (splitOnChar '/' pathname).any (fun seg => seg == ".".data || seg == "..".data) then
        none
      else
        let search :=
          match afterPath with
          | '?' :: qs => qs.takeWhile (fun c => !(c == '#'))
          | _ => []
        if !search.all queryChar then none
        else some ⟨hostname, pathname, search⟩

/-- Hexadecimal digit value, if any. -/
def hexDigitVal (c : Char) : Option Nat :=
  let n := c.toNat
  if 48 ≤ n && n ≤ 57 then some (n - 48)
  else if 65 ≤ n && n ≤ 70 then some (n - 55)
  else if 97 ≤ n && n ≤ 102 then some (n - 87)
  else none

/-- Model of `decodeURIComponent` for single-byte escapes: `%XX` with
`XX < 0x80` decodes to that character; a malformed escape yields `none`
(the real function throws `URIError` there); a multi-byte escape also
yields `none` (model restriction — the real function decodes valid UTF-8
sequences). -/
def decodeURIComponentA : Str → Option Str
  | [] => some []
  | '%' :: rest =>
    match rest with
    | c1 :: c2 :: rest2 =>
      match hexDigitVal c1, hexDigitVal c2 with
      | some h, some l =>
        if h * 16 + l < 128 then
          match decodeURIComponentA rest2 with
          | some d => some (Char.ofNat (h * 16 + l) :: d)
          | none => none
        else none
      | _, _ => none
    | _ => none
  | c :: rest =>
    match decodeURIComponentA rest with
    | some d => some (c :: d)
    | none => none

/-- The lenient percent-plus decoding used by `URLSearchParams`: `+`
becomes a space, a valid single-byte `%XX` decodes, anything else is kept
literally (the real decoder additionally reassembles multi-byte UTF-8,
which the model leaves literal). -/
def formDecode : Str → Str
  | [] => []
  | '+' :: rest => ' ' :: formDecode rest
  | '%' :: c1 :: c2 :: rest =>
    match hexDigitVal c1, hexDigitVal c2 with
    | some h, some l =>
      if h * 16 + l < 128 then Char.ofNat (h * 16 + l) :: formDecode rest
      else '%' :: c1 :: c2 :: formDecode rest
    | _, _ => '%' :: formDecode (c1 :: c2 :: rest)
  | c :: rest => c :: formDecode rest

/-- `searchParams.get(key)` over the raw query: first `&`-separated pair
whose decoded key matches, value decoded; empty pairs are skipped. -/
def lookupParam (key : Str) : List Str → Option Str
  | [] => none
  | p :: ps =>
    if p.isEmpty then lookupParam key ps
    else
      let k := p.takeWhile (fun c => !(c == '='))
      let v := p.drop (k.length + 1)
      if formDecode k = key then some (formDecode v) else lookupParam key ps

/-- `urlObj.searchParams.get(key)`. -/
def getParam (search key : Str) : Option Str :=
  lookupParam key (splitOnChar '&' search)

/-- `parseWikiUrl` (wikiService.ts 9–26).  `none` is the JavaScript
`null`; a `decodeURIComponent` failure lands in the surrounding
`try`/`catch` and also yields `null`. -/
def parseWikiUrl (url : Str) : Option Str :=
  match parseURL url with
  | none => none
  | some u =>
    if containsSub "wikipedia.org".data u.hostname then
      let pathParts := splitOnChar '/' u.pathname
      let wikiIdx := pathParts.findIdx (fun p => p == "wiki".data)
      if wikiIdx < pathParts.length && 0 < (pathParts.getD (wikiIdx + 1) []).length then
        decodeURIComponentA (pathParts.getD (wikiIdx + 1) [])
      else
        match getParam u.search "title".data with
        | some t => if 0 < t.length then some t else none
        | none => none
    else none

/-- `let title = parseWikiUrl(titleOrUrl) || titleOrUrl` (line 29):
`null` and the empty string are falsy. -/
def resolveTitle (s : Str) : Str :=
  match parseWikiUrl s with
  | some t => if 0 < t.length then t else s
  | none => s

/-! ## Response handling of `fetchWikiArticle` (wikiService.ts 42–52) -/

/-- An uppercase-hex digit. -/
def hexCharU (n : Nat) : Char := if n < 10 then Char.ofNat (48 + n) else Char.ofNat (55 + n)

/-- The UTF-8 bytes of a code point, as `Nat`s. -/
def utf8Bytes (n : Nat) : List Nat :=
  if n < 128 then [n]
  else if n < 2048 then [192 + n / 64, 128 + n % 64]
  else if n < 65536 then [224 + n / 4096, 128 + n / 64 % 64, 128 + n % 64]
  else [240 + n / 262144, 128 + n / 4096 % 64, 128 + n / 64 % 64, 128 + n % 64]

/-- `encodeURIComponent` unreserved characters: alphanumerics and
`-_.!~*()` plus the apostrophe (code 39). -/
def isUnreservedURI (c : Char) : Bool :=
  let n := c.toNat
  (65 ≤ n && n ≤ 90) || (97 ≤ n && n ≤ 122) || (48 ≤ n && n ≤ 57) ||
    n == 45 || n == 95 || n == 46 || n == 33 || n == 126 || n == 42 || n == 39 ||
    n == 40 || n == 41

/-- Model of `encodeURIComponent`. -/
def encodeURIComponentM (s : Str) : Str :=
  s.flatMap fun c =>
    if isUnreservedURI c then [c]
    else (utf8Bytes c.toNat).flatMap fun b => ['%', hexCharU (b / 16), hexCharU (b % 16)]

/-- One page object of the query response (section 6 of the spec gives the
shape `{ query: { pages: { <pageId>: { title, extract, missing? } } } }`);
`pageId` is the JSON key, `missing` the truthiness of the flag. -/
structure WikiPage where
  pageId : Str
  title : Str
  extract : Str
  missing : Bool
deriving DecidableEq, Repr

/-- The value `fetchWikiArticle` resolves with on success. -/
structure ArticleContent where
  title : Str
  extract : Str
  url : Str
deriving DecidableEq, Repr

/-- Lines 42–52 of `fetchWikiArticle`, applied to the page-id-keyed
mapping in key order: take the first page; throw `Article not found`
(modelled `Except.error ()`) when it is flagged missing or its id is
`"-1"`; otherwise resolve with title, extract and reconstructed URL.  The
outer `none` is the `TypeError` an empty mapping would raise. -/
def fetchWikiOutcome (pages : List WikiPage) : Option (Except Unit ArticleContent) :=
  match pages with
  | [] => none
  | page :: _ =>
    if page.missing || page.pageId == "-1".data then some (Except.error ())
    else
      some (Except.ok
        ⟨page.title, page.extract,
          "https://en.wikipedia.org/wiki/".data ++ encodeURIComponentM page.title⟩)

/-! ## History persistence (`saveToHistory`, App.tsx 46–50) -/

/-- One entry of a `HistoryItem`'s `results` array. -/
structure QuizResult where
  question : Str
  answer : Str
  selected : Str
  isCorrect : Bool
deriving DecidableEq

/-- The `HistoryItem` interface of App.tsx. -/
structure HistoryItem where
  url : Str
  topic : Str
  score : Nat
  total : Nat
  date : Str
  results : List QuizResult
deriving DecidableEq

/-- The key comparison of the dedup filter: `t.url === v.url && t.date === v.date`. -/
def keyMatches (t v : HistoryItem) : Bool := t.url == v.url && t.date == v.date

/-- `saveToHistory` (App.tsx 46–50): prepend the new item, then keep each
element only at the first index carrying its `(url, date)` key —
`[item, ...history].filter((v, i, a) => a.findIndex(t => t.url === v.url && t.date === v.date) === i)`. -/
def saveToHistory (item : HistoryItem) (history : List HistoryItem) : List HistoryItem :=
  let a := item :: history
  ((a.enum.filter (fun p => a.findIdx (fun t => keyMatches t p.2) == p.1)).map Prod.snd)

/-! ## Basic lemmas about the string primitives -/

theorem isPrefixList_iff {a b : Str} : isPrefixList a b = true ↔ a <+: b := by
  induction a generalizing b with
  | nil => simp [isPrefixList]
  | cons x xs ih =>
    cases b with
    | nil => simp [isPrefixList]
    | cons y ys =>
      simp only [isPrefixList, Bool.and_eq_true, beq_iff_eq, ih]
      constructor
      · rintro ⟨rfl, t, rfl⟩
        exact ⟨t, rfl⟩
      · rintro ⟨t, h⟩
        cases h
        exact ⟨rfl, t, rfl⟩

theorem isPrefixList_self_append (a b : Str) : isPrefixList a (a ++ b) = true :=
  isPrefixList_iff.mpr ⟨b, rfl⟩

theorem containsSub_of_isPrefixList {n h : Str} (hp : isPrefixList n h = true) :
    containsSub n h = true := by
  cases h with
  | nil => simpa [containsSub] using hp
  | cons c cs => simp [containsSub, hp]

theorem containsSub_of_parts (n x y : Str) : containsSub n (x ++ n ++ y) = true := by
  induction x with
  | nil =>
    exact containsSub_of_isPrefixList (by simpa using isPrefixList_self_append n y)
  | cons c cs ih =>
    simp only [List.cons_append, containsSub]
    simp only [List.append_assoc] at ih ⊢
    simp [ih]

theorem containsSub_of_occurs {n h : Str} (hx : n <:+: h) : containsSub n h = true := by
  obtain ⟨x, y, rfl⟩ := hx
  rw [show x ++ n ++ y = x ++ n ++ y by rfl]
  exact containsSub_of_parts n x y

theorem splitOnPred_ne_nil (p : Char → Bool) (s : Str) : splitOnPred p s ≠ [] := by
  cases s with
  | nil => simp [splitOnPred]
  | cons c cs =>
    simp only [splitOnPred]
    split
    · simp
    · split <;> simp

theorem mem_splitOnPred_no_sep {p : Char → Bool} {s w : Str} (hw : w ∈ splitOnPred p s) :
    ∀ c ∈ w, p c = false := by
  induction s generalizing w with
  | nil =>
    simp [splitOnPred] at hw
    simp [hw]
  | cons c cs ih =>
    simp only [splitOnPred] at hw
    by_cases hc : p c
    · simp [hc] at hw
      rcases hw with rfl | hw
      · simp
      · exact ih hw
    · simp only [hc, if_neg, Bool.false_eq_true, if_false] at hw
      rcases hh : splitOnPred p cs with _ | ⟨v, vs⟩
      · exact absurd hh (splitOnPred_ne_nil p cs)
      · rw [hh] at hw
        simp at hw
        rcases hw with rfl | hw
        · intro d hd
          rcases List.mem_cons.mp hd with rfl | hd
          · simpa using hc
          · exact ih (hh ▸ List.mem_cons_self v vs) d hd
        · exact ih (hh ▸ List.mem_cons_of_mem v hw)

theorem splitOnPred_headD_pre (p : Char → Bool) (s : Str) :
    (splitOnPred p s).headD [] <+: s := by
  induction s with
  | nil => simp [splitOnPred]
  | cons c cs ih =>
    simp only [splitOnPred]
    by_cases hc : p c
    · simp [hc]
    · rcases hh : splitOnPred p cs with _ | ⟨v, vs⟩
      · exact absurd hh (splitOnPred_ne_nil p cs)
      · rw [hh] at ih
        simp only [List.headD_cons] at ih
        obtain ⟨t, rfl⟩ := ih
        simp only [hc, Bool.false_eq_true, if_false, hh, List.headD_cons]
        exact ⟨t, rfl⟩

theorem mem_splitOnPred_occurs {p : Char → Bool} {s w : Str} (hw : w ∈ splitOnPred p s) :
    w <:+: s := by
  induction s generalizing w with
  | nil =>
    simp [splitOnPred] at hw
    simp [hw]
  | cons c cs ih =>
    simp only [splitOnPred] at hw
    by_cases hc : p c
    · simp [hc] at hw
      rcases hw with rfl | hw
      · exact ⟨[], c :: cs, rfl⟩
      · exact (ih hw).trans ⟨[c], [], by simp⟩
    · simp only [hc, Bool.false_eq_true, if_false] at hw
      rcases hh : splitOnPred p cs with _ | ⟨v, vs⟩
      · exact absurd hh (splitOnPred_ne_nil p cs)
      · rw [hh] at hw
        simp at hw
        rcases hw with rfl | hw
        · have hv : v <+: cs := by
            have := splitOnPred_headD_pre p cs
            rwa [hh, List.headD_cons] at this
          obtain ⟨t, rfl⟩ := hv
          exact ⟨[], t, rfl⟩
        · have : w ∈ splitOnPred p cs := by rw [hh]; exact List.mem_cons_of_mem v hw
          exact (ih this).trans ⟨[c], [], by simp⟩

/-- Does `needle` match `hay` at offset `i`? -/
def matchAtPos (needle hay : Str) (i : Nat) : Bool := isPrefixList needle (hay.drop i)

theorem matchAtPos_succ (n : Str) (c : Char) (cs : Str) (j : Nat) :
    matchAtPos n (c :: cs) (j + 1) = matchAtPos n cs j := by
  simp [matchAtPos]

/-- `replaceFirstL` rewrites exactly the first occurrence: when `needle`
occurs in `hay` there is a unique first offset `i`, and the result is the
splice of `repl` over `needle` there. -/
theorem replaceFirstL_first (needle repl : Str) :
    ∀ hay : Str, containsSub needle hay = true →
      ∃ i, i + needle.length ≤ hay.length ∧ matchAtPos needle hay i = true ∧
        (∀ j < i, matchAtPos needle hay j = false) ∧
        replaceFirstL needle repl hay = hay.take i ++ repl ++ hay.drop (i + needle.length) := by
  intro hay
  induction hay with
  | nil =>
    intro hc
    simp only [containsSub] at hc
    refine ⟨0, ?_, ?_, ?_, ?_⟩
    · have := (isPrefixList_iff.mp hc).length_le
      simpa using this
    · simpa [matchAtPos] using hc
    · omega
    · simp [replaceFirstL, hc]
  | cons c cs ih =>
    intro hc
    by_cases hp : isPrefixList needle (c :: cs) = true
    · refine ⟨0, ?_, ?_, ?_, ?_⟩
      · have := (isPrefixList_iff.mp hp).length_le
        simpa using this
      · simpa [matchAtPos] using hp
      · omega
      · simp [replaceFirstL, hp]
    · have hc' : containsSub needle cs = true := by
        simp only [containsSub, Bool.or_eq_true] at hc
        tauto
      obtain ⟨i, hle, hm, hfirst, heq⟩ := ih hc'
      refine ⟨i + 1, by simp only [List.length_cons]; omega, ?_, ?_, ?_⟩
      · rwa [matchAtPos_succ]
      · intro j hj
        cases j with
        | zero => simpa [matchAtPos] using hp
        | succ j' =>
          rw [matchAtPos_succ]
          exact hfirst j' (by omega)
      · have hb : isPrefixList needle (c :: cs) = false := by
          simpa using hp
        simp only [replaceFirstL, hb, Bool.false_eq_true, if_false, heq]
        have harith : i + 1 + needle.length = (i + needle.length) + 1 := by omega
        simp [List.take_succ_cons, harith, List.drop_succ_cons]

theorem take_pre (n : Nat) (s : Str) : s.take n <+: s :=
  ⟨s.drop n, List.take_append_drop n s⟩

theorem dropLast_pre (s : Str) : s.dropLast <+: s := by
  rw [List.dropLast_eq_take]
  exact take_pre _ s

theorem stripTrailing_eq_or (s : Str) : stripTrailing s = s ∨ stripTrailing s = s.dropLast := by
  unfold stripTrailing
  cases s.getLast? with
  | none => exact Or.inl rfl
  | some c =>
    by_cases hp : isPunct c
    · exact Or.inr (by simp [hp])
    · exact Or.inl (by simp [hp])

theorem stripTrailing_pre (s : Str) : stripTrailing s <+: s := by
  rcases stripTrailing_eq_or s with h | h
  · rw [h]
  · rw [h]
    exact dropLast_pre s

theorem stripTrailing_length (s : Str) : s.length - 1 ≤ (stripTrailing s).length := by
  rcases stripTrailing_eq_or s with h | h <;> rw [h]
  · omega
  · rw [List.length_dropLast]

/-- Does the string end in `,`/`.`/`;`? -/
def endsPunct (s : Str) : Bool :=
  match s.getLast? with
  | some c => isPunct c
  | none => false

theorem stripTrailing_endsPunct {t : Str} (h : endsPunct (stripTrailing t) = true) :
    endsPunct t = true ∧ endsPunct t.dropLast = true := by
  unfold stripTrailing at h
  cases hl : t.getLast? with
  | none =>
    rw [hl] at h
    exact absurd h (by simp [endsPunct, hl])
  | some c =>
    rw [hl] at h
    by_cases hp : isPunct c
    · simp only [hp, if_true] at h
      exact ⟨by simp [endsPunct, hl, hp], h⟩
    · simp only [hp, Bool.false_eq_true, if_false] at h
      rw [endsPunct, hl] at h
      exact absurd h hp

/-! ## Oracle draws, shuffles, permutation facts -/

theorem getD_mem_of_lt : ∀ (l : List Str) (i : Nat), i < l.length → l.getD i [] ∈ l := by
  intro l
  induction l with
  | nil => intro i h; simp at h
  | cons a t ih =>
    intro i h
    cases i with
    | zero => simp
    | succ j =>
      simp only [List.getD_cons_succ]
      exact List.mem_cons_of_mem a (ih j (by simpa using h))

theorem pickD_mem (rng : Nat → Nat) (k : Nat) {l : List Str} (h : 0 < l.length) :
    pickD rng k l ∈ l :=
  getD_mem_of_lt l _ (Nat.mod_lt _ h)

theorem getD_cons_eraseIdx_perm :
    ∀ (l : List Str) (i : Nat), i < l.length → (l.getD i [] :: l.eraseIdx i).Perm l := by
  intro l
  induction l with
  | nil => intro i h; simp at h
  | cons a t ih =>
    intro i h
    cases i with
    | zero => simp
    | succ j =>
      have hj : j < t.length := by simpa using h
      have h1 : (a :: t).getD (j + 1) [] :: (a :: t).eraseIdx (j + 1)
          = t.getD j [] :: a :: t.eraseIdx j := by simp
      rw [h1]
      exact (List.Perm.swap a (t.getD j []) (t.eraseIdx j)).trans ((ih j hj).cons a)

theorem shuffleGo_perm (rng : Nat → Nat) :
    ∀ (fuel k : Nat) (l : List Str), l.length ≤ fuel → (shuffleGo rng k fuel l).Perm l := by
  intro fuel
  induction fuel with
  | zero =>
    intro k l h
    simp [shuffleGo]
  | succ n ih =>
    intro k l h
    cases l with
    | nil => simp [shuffleGo]
    | cons a t =>
      simp only [shuffleGo]
      have hi : rng k % (a :: t).length < (a :: t).length :=
        Nat.mod_lt _ (by simp)
      have hlen : ((a :: t).eraseIdx (rng k % (a :: t).length)).length ≤ n := by
        rw [List.length_eraseIdx_of_lt hi]
        simp only [List.length_cons] at h ⊢
        omega
      exact ((ih _ _ hlen).cons _).trans (getD_cons_eraseIdx_perm _ _ hi)

theorem shuffleStr_perm (rng : Nat → Nat) (k : Nat) (l : List Str) :
    (shuffleStr rng k l).Perm l :=
  shuffleGo_perm rng l.length k l (Nat.le_refl _)

/-! ## Characters, lowercasing and spaces -/

theorem toLower_eq_space {c : Char} (h : Char.toLower c = ' ') : c = ' ' := by
  rw [Char.toLower] at h
  split at h
  · exfalso
    rename_i hr
    obtain ⟨h1, h2⟩ := hr
    set n := c.toNat with hn
    interval_cases n <;> exact absurd h (by decide)
  · exact h

theorem space_mem_of_lowerStr {s : Str} (h : ' ' ∈ lowerStr s) : ' ' ∈ s := by
  simp only [lowerStr, List.mem_map] at h
  obtain ⟨c, hc, hlc⟩ := h
  rwa [toLower_eq_space hlc] at hc

theorem space_mem_lowerStr {s : Str} (h : ' ' ∈ s) : ' ' ∈ lowerStr s := by
  have : Char.toLower ' ' = ' ' := by decide
  simpa [lowerStr, this] using List.mem_map_of_mem Char.toLower h

/-! ## Target-word and token facts -/

theorem mem_targetWordsOf {title trimmed w : Str} (h : w ∈ targetWordsOf title trimmed) :
    w ∈ splitOnChar ' ' trimmed ∧ 5 < w.length := by
  unfold targetWordsOf at h
  by_cases hp : 0 < (preferredWords title trimmed).length
  · rw [if_pos hp] at h
    unfold preferredWords at h
    have hm := List.mem_filter.mp h
    refine ⟨hm.1, ?_⟩
    have hb := hm.2
    simp only [Bool.and_eq_true, decide_eq_true_eq] at hb
    exact hb.1.1
  · rw [if_neg hp] at h
    unfold fallbackWords at h
    have hm := List.mem_filter.mp h
    refine ⟨hm.1, ?_⟩
    have hb := hm.2
    simp only [decide_eq_true_eq] at hb
    omega

theorem no_space_of_mem_splitSpace {s w : Str} (h : w ∈ splitOnChar ' ' s) : ' ' ∉ w := by
  intro hsp
  have := mem_splitOnPred_no_sep h ' ' hsp
  simp at this

theorem no_space_of_mem_splitWs {s w : Str} (h : w ∈ splitOnPred Char.isWhitespace s) :
    ' ' ∉ w := by
  intro hsp
  have := mem_splitOnPred_no_sep h ' ' hsp
  simp [Char.isWhitespace] at this

theorem no_space_stripTrailing {w : Str} (h : ' ' ∉ w) : ' ' ∉ stripTrailing w :=
  fun hsp => h ((stripTrailing_pre w).subset hsp)

theorem mem_allWordsOf {extract target w : Str} (h : w ∈ allWordsOf extract target) :
    w ∈ splitOnPred Char.isWhitespace extract ∧ 5 < w.length ∧ lowerStr w ≠ lowerStr target := by
  unfold allWordsOf at h
  have hm := List.mem_filter.mp h
  have hb := hm.2
  simp only [Bool.and_eq_true, decide_eq_true_eq, Bool.not_eq_eq_eq_not, Bool.not_true,
    beq_eq_false_iff_ne, ne_eq] at hb
  exact ⟨hm.1, hb.1, hb.2⟩

/-! ## The sampling loop and option padding -/

theorem sampleLoop_spec (aw : List Str) (rng : Nat → Nat) :
    ∀ (fuel k : Nat) (opts res : List Str) (k' : Nat),
      sampleLoop aw rng fuel k opts = some (res, k') →
      opts <+: res ∧
      (opts.length ≤ 4 → res.length ≤ 4) ∧
      (∀ w ∈ res, w ∈ opts ∨ ∃ t ∈ aw, w = stripTrailing t) ∧
      (opts.Pairwise (fun a b => lowerStr a ≠ lowerStr b) →
        res.Pairwise (fun a b => lowerStr a ≠ lowerStr b)) := by
  intro fuel
  induction fuel with
  | zero =>
    intro k opts res k' h
    simp only [sampleLoop] at h
    split at h
    · exact absurd h (by simp)
    · rw [Option.some_inj] at h
      cases h
      exact ⟨List.prefix_refl _, fun h4 => h4, fun w hw => Or.inl hw, id⟩
  | succ n ih =>
    intro k opts res k' h
    simp only [sampleLoop] at h
    split at h
    case isFalse hcond =>
      rw [Option.some_inj] at h
      cases h
      exact ⟨List.prefix_refl _, fun h4 => h4, fun w hw => Or.inl hw, id⟩
    case isTrue hcond =>
      have hlt : opts.length < 4 ∧ 0 < aw.length := by
        simpa [Bool.and_eq_true, decide_eq_true_eq] using hcond
      split at h
      case isTrue hany => exact ih _ _ _ _ h
      case isFalse hany =>
        obtain ⟨h1, h2, h3, h4⟩ := ih _ _ _ _ h
        set fake := stripTrailing (pickD rng k aw) with hfake
        have hfmem : ∃ t ∈ aw, fake = stripTrailing t :=
          ⟨pickD rng k aw, pickD_mem rng k hlt.2, rfl⟩
        refine ⟨?_, ?_, ?_, ?_⟩
        · exact (List.prefix_append opts [fake]).trans h1
        · intro _
          exact h2 (by simp only [List.length_append, List.length_cons, List.length_nil]; omega)
        · intro w hw
          rcases h3 w hw with hmem | hnew
          · rcases List.mem_append.mp hmem with hl | hr
            · exact Or.inl hl
            · rcases List.mem_singleton.mp hr with rfl
              exact Or.inr hfmem
          · exact Or.inr hnew
        · intro hpw
          apply h4
          rw [List.pairwise_append]
          refine ⟨hpw, by simp, ?_⟩
          intro a ha b hb
          rcases List.mem_singleton.mp hb with rfl
          have hne := List.any_eq_false.mp (Bool.eq_false_iff.mpr hany) a ha
          simpa [beq_eq_false_iff_ne] using hne

theorem padOptions_len4 {l : List Str} (h : l.length = 4) : padOptions l = l := by
  simp [padOptions, padGo, h]

theorem padOptions_len3 {l : List Str} (h : l.length = 3) :
    padOptions l = l ++ [optionLabel 3] := by
  simp [padOptions, padGo, h, List.length_append]

theorem padOptions_len2 {l : List Str} (h : l.length = 2) :
    padOptions l = l ++ [optionLabel 2, optionLabel 3] := by
  simp [padOptions, padGo, h, List.length_append]

theorem padOptions_len1 {l : List Str} (h : l.length = 1) :
    padOptions l = l ++ [optionLabel 1, optionLabel 2, optionLabel 3] := by
  simp [padOptions, padGo, h, List.length_append]

/-- Pad result for a 1–4 element list: an explicit label tail, total length
four, labels containing spaces and pairwise distinct. -/
theorem padOptions_spec {l : List Str} (h1 : 1 ≤ l.length) (h4 : l.length ≤ 4) :
    ∃ L, padOptions l = l ++ L ∧ (padOptions l).length = 4 ∧
      (∀ w ∈ L, ' ' ∈ w) ∧ L.Pairwise (fun a b => lowerStr a ≠ lowerStr b) := by
  have hc : l.length = 1 ∨ l.length = 2 ∨ l.length = 3 ∨ l.length = 4 := by omega
  rcases hc with h | h | h | h
  · refine ⟨[optionLabel 1, optionLabel 2, optionLabel 3], padOptions_len1 h, ?_, ?_, ?_⟩
    · rw [padOptions_len1 h]
      simp only [List.length_append, List.length_cons, List.length_nil]; omega
    · intro w hw
      fin_cases hw <;> decide
    · decide
  · refine ⟨[optionLabel 2, optionLabel 3], padOptions_len2 h, ?_, ?_, ?_⟩
    · rw [padOptions_len2 h]
      simp only [List.length_append, List.length_cons, List.length_nil]; omega
    · intro w hw
      fin_cases hw <;> decide
    · decide
  · refine ⟨[optionLabel 3], padOptions_len3 h, ?_, ?_, ?_⟩
    · rw [padOptions_len3 h]
      simp only [List.length_append, List.length_cons, List.length_nil]; omega
    · intro w hw
      fin_cases hw
      decide
    · decide
  · refine ⟨[], by simpa using padOptions_len4 h, ?_, by simp, by simp⟩
    · rw [padOptions_len4 h, h]

/-! ## Per-question inversion of the generator -/

/-- What holds of every question the generator pushes: it came from a pool
sentence `s` and an oracle position `k`, with the answer drawn from the
target words, the question a first-occurrence splice, and the options the
shuffled padding of a finished sampling run seeded with the answer. -/
def QuestionSpec (rng : Nat → Nat) (title extract : Str) (fuel : Nat)
    (q : WikiQuizQuestion) : Prop :=
  ∃ s ∈ sentencePool extract, ∃ k : Nat,
    0 < (targetWordsOf title (trimStr s)).length ∧
    q.answer = stripTrailing (pickD rng k (targetWordsOf title (trimStr s))) ∧
    q.question = replaceFirstL q.answer BLANK (trimStr s) ∧
    ∃ opts k',
      sampleLoop (allWordsOf extract q.answer) rng fuel (k + 1) [q.answer] = some (opts, k') ∧
      q.options = shuffleStr rng k' (padOptions opts)

theorem genLoop_mem_spec (rng : Nat → Nat) (title extract : Str) (fuel : Nat) :
    ∀ (ss : List Str) (k : Nat) (acc out : List WikiQuizQuestion),
      (∀ s ∈ ss, s ∈ sentencePool extract) →
      genLoop rng title extract fuel ss k acc = some out →
      ∀ q ∈ out, q ∈ acc ∨ QuestionSpec rng title extract fuel q := by
  intro ss
  induction ss with
  | nil =>
    intro k acc out _ h q hq
    simp only [genLoop, Option.some_inj] at h
    exact Or.inl (h ▸ hq)
  | cons s rest ih =>
    intro k acc out hss h q hq
    simp only [genLoop] at h
    split at h
    · rw [Option.some_inj] at h
      exact Or.inl (h ▸ hq)
    · split at h
      case isTrue htw =>
        rcases hsl : sampleLoop
            (allWordsOf extract (stripTrailing (pickD rng k (targetWordsOf title (trimStr s)))))
            rng fuel (k + 1) [stripTrailing (pickD rng k (targetWordsOf title (trimStr s)))]
          with _ | ⟨opts, k'⟩
        · rw [hsl] at h
          exact absurd h (by simp)
        · rw [hsl] at h
          have hrest : ∀ s' ∈ rest, s' ∈ sentencePool extract :=
            fun s' hs' => hss s' (List.mem_cons_of_mem s hs')
          rcases ih _ _ _ hrest h q hq with hacc | hspec
          · rcases List.mem_append.mp hacc with hold | hnew
            · exact Or.inl hold
            · rcases List.mem_singleton.mp hnew with rfl
              refine Or.inr ⟨s, hss s (List.mem_cons_self s rest), k, htw, rfl, rfl,
                opts, k', ?_, rfl⟩
              exact hsl
          · exact Or.inr hspec
      case isFalse htw =>
        exact ih _ _ _ (fun s' hs' => hss s' (List.mem_cons_of_mem s hs')) h q hq

/-- Every question of a finished `generateQuizFromExtract` run satisfies
`QuestionSpec`. -/
theorem generate_mem_spec {rng : Nat → Nat} {fuel : Nat} {title extract : Str}
    {out : List WikiQuizQuestion} {q : WikiQuizQuestion}
    (h : generateQuizFromExtract rng fuel title extract = some out) (hq : q ∈ out) :
    QuestionSpec rng title extract fuel q := by
  unfold generateQuizFromExtract at h
  have hss : ∀ s ∈ shuffleStr rng 0 (sentencePool extract), s ∈ sentencePool extract :=
    fun s hs => (shuffleStr_perm rng 0 (sentencePool extract)).mem_iff.mp hs
  rcases genLoop_mem_spec rng title extract fuel _ _ _ _ hss h q hq with hacc | hspec
  · simp at hacc
  · exact hspec

/-! ## Concrete runs used to instantiate the generator theorems -/

/-- The identity oracle: draw `k` at counter `k`. -/
def rngId : Nat → Nat := fun k => k

/-- The constant-zero oracle: always draw index 0. -/
def rng0 : Nat → Nat := fun _ => 0

def exTitle1 : Str := "qq".data

def exExtract1 : Str :=
  "Alpha1 met Bravoo and Charlie near Deltaa while Echooo watched Foxtrot during golfing hours yesterday evening".data

/-- The run `generateQuizFromExtract rngId 30 exTitle1 exExtract1` produces
exactly this question (checked by kernel evaluation in the witnesses). -/
def exQ1 : WikiQuizQuestion :=
  ⟨"Alpha1 met _______ and Charlie near Deltaa while Echooo watched Foxtrot during golfing hours yesterday evening".data,
   ["Deltaa".data, "Bravoo".data, "watched".data, "Echooo".data],
   "Bravoo".data⟩

def exTitle2 : Str := "qq".data

def exExtract2 : Str :=
  "Zebras;, pppppp rrrrrr ssssss aa bb cc dd ee ff gg hh ii jj kk ll mm nn oo pp rr ss tt uu vv ww xx yy zz ab cd".data

/-- The run `generateQuizFromExtract rngId 30 exTitle2 exExtract2` produces
exactly this question; its answer still ends in `;` because the chosen
token `"Zebras;,"` carried two trailing punctuation marks. -/
def exQ2 : WikiQuizQuestion :=
  ⟨"_______, pppppp rrrrrr ssssss aa bb cc dd ee ff gg hh ii jj kk ll mm nn oo pp rr ss tt uu vv ww xx yy zz ab cd".data,
   ["ssssss".data, "rrrrrr".data, "Zebras;".data, "pppppp".data],
   "Zebras;".data⟩

def exTitle3 : Str := "qq".data

/-- In this extract the only token longer than 5 characters is
`"Zebras;,"`; the chosen answer is `"Zebras;"`, and the single distractor
candidate `"Zebras;,"` strips to the answer itself, so every sampling draw
collides case-insensitively and the `while` loop never makes progress. -/
def exExtract3 : Str :=
  "Zebras;, aa bb cc dd ee ff gg hh ii jj kk ll mm nn oo pp rr ss tt uu vv ww xx yy zz ab cd ef gh ij kl mn op qr".data

def exTarget3 : Str := "Zebras;".data

def exAW3 : List Str := ["Zebras;,".data]

theorem ex3_sampleLoop_stuck : ∀ (fuel k : Nat), sampleLoop exAW3 rng0 fuel k [exTarget3] = none := by
  intro fuel
  induction fuel with
  | zero => intro k; rfl
  | succ n ih =>
    intro k
    have hstep : sampleLoop exAW3 rng0 (n + 1) k [exTarget3] =
        sampleLoop exAW3 rng0 n (k + 1) [exTarget3] := rfl
    rw [hstep]
    exact ih (k + 1)

/-! ## Claim theorems for the quiz generator -/

/-- C1 (counterexample): `generateQuizFromExtract` does NOT terminate on
every input.  On `exTitle3`/`exExtract3` with the constant-zero oracle the
distractor pool is the single word `"Zebras;,"`, whose stripped form
collides case-insensitively with the answer `"Zebras;"` on every draw, so
the sampling loop makes no progress: for every fuel bound both the loop
and the whole generator fail to finish — the pool is never exhausted
because the source never removes candidates from it. -/
theorem c1_counterexample :
    (fun fuel => sampleLoop exAW3 rng0 fuel 2 [exTarget3]) = (fun _ => none) ∧
    (fun fuel => generateQuizFromExtract rng0 fuel exTitle3 exExtract3) = (fun _ => none) := by
  constructor
  · funext fuel
    exact ex3_sampleLoop_stuck fuel 2
  · funext fuel
    have hgen : generateQuizFromExtract rng0 fuel exTitle3 exExtract3 =
        (match sampleLoop exAW3 rng0 fuel 2 [exTarget3] with
         | none => none
         | some (opts, k') =>
            some [⟨replaceFirstL exTarget3 BLANK exExtract3,
                   shuffleStr rng0 k' (padOptions opts), exTarget3⟩]) := rfl
    rw [hgen, ex3_sampleLoop_stuck fuel 2]

/-- C1 (amended): the distractor-sampling loop stops at once — with the
options unchanged — when the candidate pool is empty or four options are
already present; with a non-empty pool it is not guaranteed to stop, since
candidates are never removed and persistent case-insensitive collisions
recur forever (see the counterexample). -/
theorem c1_amended_sampling_stops (aw : List Str) (rng : Nat → Nat) (fuel k : Nat)
    (opts : List Str) (h : aw = [] ∨ 4 ≤ opts.length) :
    sampleLoop aw rng fuel k opts = some (opts, k) := by
  have hcond : (opts.length < 4 && 0 < aw.length) = false := by
    rcases h with rfl | h4
    · simp
    · simp only [Bool.and_eq_false_iff, decide_eq_false_iff_not, Nat.not_lt]
      exact Or.inl h4
  cases fuel with
  | zero => simp [sampleLoop, hcond]
  | succ n => simp [sampleLoop, hcond]

theorem c1_amended_witness :
    sampleLoop [] rng0 5 7 ["seeded".data] = some (["seeded".data], 7) :=
  c1_amended_sampling_stops [] rng0 5 7 ["seeded".data] (Or.inl rfl)

/-- C2: every question a finished `generateQuizFromExtract` run returns
has exactly four options, pairwise distinct after lowercasing, and the
answer is a case-insensitive member of the options. -/
theorem c2_options_wellformed (rng : Nat → Nat) (fuel : Nat) (title extract : Str)
    (out : List WikiQuizQuestion) (q : WikiQuizQuestion)
    (hout : generateQuizFromExtract rng fuel title extract = some out) (hq : q ∈ out) :
    q.options.length = 4 ∧
    q.options.Pairwise (fun a b => lowerStr a ≠ lowerStr b) ∧
    ∃ o ∈ q.options, lowerStr o = lowerStr q.answer := by
  obtain ⟨s, hs, k, htw, hans, hques, opts, k', hsl, hopts⟩ := generate_mem_spec hout hq
  obtain ⟨hpre, hlen4, hmem, hpw⟩ := sampleLoop_spec _ rng _ _ _ _ _ hsl
  have hanslen : 1 ≤ opts.length := by
    have := hpre.length_le
    simpa using this
  have hoptslen : opts.length ≤ 4 := hlen4 (by simp)
  have hansmem : q.answer ∈ opts := hpre.subset (by simp)
  have htok : pickD rng k (targetWordsOf title (trimStr s)) ∈ targetWordsOf title (trimStr s) :=
    pickD_mem rng k htw
  have hnospace : ∀ w ∈ opts, ' ' ∉ w := by
    intro w hw
    rcases hmem w hw with h1 | ⟨t, ht, rfl⟩
    · rcases List.mem_singleton.mp h1 with rfl
      rw [hans]
      exact no_space_stripTrailing (no_space_of_mem_splitSpace (mem_targetWordsOf htok).1)
    · exact no_space_stripTrailing (no_space_of_mem_splitWs (mem_allWordsOf ht).1)
  have hpwopts : opts.Pairwise (fun a b => lowerStr a ≠ lowerStr b) := hpw (by simp)
  obtain ⟨L, hpad, hpadlen, hLspace, hLpw⟩ := padOptions_spec hanslen hoptslen
  have hperm := shuffleStr_perm rng k' (padOptions opts)
  rw [hopts]
  refine ⟨by rw [hperm.length_eq, hpadlen], ?_, ?_⟩
  · rw [hperm.pairwise_iff (fun hab hba => hab hba.symm), hpad, List.pairwise_append]
    refine ⟨hpwopts, hLpw, ?_⟩
    intro a ha b hb heq
    exact hnospace a ha (space_mem_of_lowerStr (heq ▸ space_mem_lowerStr (hLspace b hb)))
  · exact ⟨q.answer, hperm.mem_iff.mpr (hpad ▸ List.mem_append_left L hansmem), rfl⟩

theorem c2_witness :
    exQ1.options.length = 4 ∧
    exQ1.options.Pairwise (fun a b => lowerStr a ≠ lowerStr b) ∧
    ∃ o ∈ exQ1.options, lowerStr o = lowerStr exQ1.answer :=
  c2_options_wellformed rngId 30 exTitle1 exExtract1 [exQ1] exQ1 (by decide) (by decide)

/-- C3: every returned question's text is the trimmed pool sentence with
exactly the first textual occurrence of the answer replaced by the blank
marker of seven underscores: the answer matches the sentence at offset
`i`, no earlier offset matches, and the question splices the blank over
that occurrence. -/
theorem c3_first_occurrence_masked (rng : Nat → Nat) (fuel : Nat) (title extract : Str)
    (out : List WikiQuizQuestion) (q : WikiQuizQuestion)
    (hout : generateQuizFromExtract rng fuel title extract = some out) (hq : q ∈ out) :
    BLANK = List.replicate 7 '_' ∧
    ∃ s ∈ sentencePool extract, ∃ i,
      matchAtPos q.answer (trimStr s) i = true ∧
      (∀ j < i, matchAtPos q.answer (trimStr s) j = false) ∧
      q.question = (trimStr s).take i ++ BLANK ++ (trimStr s).drop (i + q.answer.length) := by
  refine ⟨by decide, ?_⟩
  obtain ⟨s, hs, k, htw, hans, hques, _, _, _, _⟩ := generate_mem_spec hout hq
  have htok : pickD rng k (targetWordsOf title (trimStr s)) ∈ targetWordsOf title (trimStr s) :=
    pickD_mem rng k htw
  have hocc : q.answer <:+: trimStr s := by
    rw [hans]
    exact (stripTrailing_pre _).isInfix.trans
      (mem_splitOnPred_occurs (mem_targetWordsOf htok).1)
  obtain ⟨i, _, hm, hfirst, heq⟩ :=
    replaceFirstL_first q.answer BLANK (trimStr s) (containsSub_of_occurs hocc)
  exact ⟨s, hs, i, hm, hfirst, by rw [hques, heq]⟩

theorem c3_witness :
    BLANK = List.replicate 7 '_' ∧
    ∃ s ∈ sentencePool exExtract1, ∃ i,
      matchAtPos exQ1.answer (trimStr s) i = true ∧
      (∀ j < i, matchAtPos exQ1.answer (trimStr s) j = false) ∧
      exQ1.question = (trimStr s).take i ++ BLANK ++ (trimStr s).drop (i + exQ1.answer.length) :=
  c3_first_occurrence_masked rngId 30 exTitle1 exExtract1 [exQ1] exQ1 (by decide) (by decide)

/-- C7 (counterexample): an answer CAN still end in `,`/`.`/`;`.  In the
run on `exTitle2`/`exExtract2` the chosen token is `"Zebras;,"`; only its
final `,` is stripped, and the returned answer `"Zebras;"` ends in `;`. -/
theorem c7_counterexample :
    generateQuizFromExtract rngId 30 exTitle2 exExtract2 = some [exQ2] ∧
    exQ2 ∈ [exQ2] ∧ endsPunct exQ2.answer = true := by
  refine ⟨by decide, by decide, by decide⟩

/-- C7 (amended): the answer is the chosen sentence token (longer than 5
characters) with at most ONE trailing punctuation character removed; it
can therefore still end in `,`/`.`/`;`, but only when the chosen token
ended in two or more punctuation characters. -/
theorem c7_amended_strip_once (rng : Nat → Nat) (fuel : Nat) (title extract : Str)
    (out : List WikiQuizQuestion) (q : WikiQuizQuestion)
    (hout : generateQuizFromExtract rng fuel title extract = some out) (hq : q ∈ out) :
    ∃ s ∈ sentencePool extract, ∃ tok ∈ splitOnChar ' ' (trimStr s),
      5 < tok.length ∧ q.answer = stripTrailing tok ∧
      (endsPunct q.answer = true → endsPunct tok = true ∧ endsPunct tok.dropLast = true) := by
  obtain ⟨s, hs, k, htw, hans, _, _, _, _, _⟩ := generate_mem_spec hout hq
  have htok : pickD rng k (targetWordsOf title (trimStr s)) ∈ targetWordsOf title (trimStr s) :=
    pickD_mem rng k htw
  obtain ⟨hmem, hlen⟩ := mem_targetWordsOf htok
  refine ⟨s, hs, _, hmem, hlen, hans, ?_⟩
  intro hp
  exact stripTrailing_endsPunct (hans ▸ hp)

theorem c7_witness :
    ∃ s ∈ sentencePool exExtract1, ∃ tok ∈ splitOnChar ' ' (trimStr s),
      5 < tok.length ∧ exQ1.answer = stripTrailing tok ∧
      (endsPunct exQ1.answer = true → endsPunct tok = true ∧ endsPunct tok.dropLast = true) :=
  c7_amended_strip_once rngId 30 exTitle1 exExtract1 [exQ1] exQ1 (by decide) (by decide)

/-- C10: every returned answer is at least 5 characters long — preferred
candidates are tokens longer than 5 characters, fallback candidates
longer than 6, and at most one trailing punctuation character is removed
from the chosen token. -/
theorem c10_answer_length (rng : Nat → Nat) (fuel : Nat) (title extract : Str)
    (out : List WikiQuizQuestion) (q : WikiQuizQuestion)
    (hout : generateQuizFromExtract rng fuel title extract = some out) (hq : q ∈ out) :
    5 ≤ q.answer.length := by
  obtain ⟨s, _, k, htw, hans, _, _, _, _, _⟩ := generate_mem_spec hout hq
  have htok : pickD rng k (targetWordsOf title (trimStr s)) ∈ targetWordsOf title (trimStr s) :=
    pickD_mem rng k htw
  have hlen := (mem_targetWordsOf htok).2
  have hstrip := stripTrailing_length (pickD rng k (targetWordsOf title (trimStr s)))
  rw [hans]
  omega

theorem c10_witness : 5 ≤ exQ1.answer.length :=
  c10_answer_length rngId 30 exTitle1 exExtract1 [exQ1] exQ1 (by decide) (by decide)

/-! ## URL-model computation lemmas -/

theorem char_eq_of_toNat_eq {a b : Char} (h : a.toNat = b.toNat) : a = b :=
  Char.ext (UInt32.toNat.inj h)

theorem hostChar_not_authEnd {c : Char} (h : hostChar c = true) : (!isAuthEnd c) = true := by
  have hr : (65 ≤ c.toNat ∧ c.toNat ≤ 90) ∨ (97 ≤ c.toNat ∧ c.toNat ≤ 122) ∨
      (48 ≤ c.toNat ∧ c.toNat ≤ 57) ∨ c.toNat = 45 ∨ c.toNat = 46 ∨ c.toNat = 95 := by
    simp only [hostChar, Bool.or_eq_true, Bool.and_eq_true, decide_eq_true_eq,
      beq_iff_eq] at h
    rcases h with ((((h | h) | h) | rfl) | rfl) | rfl
    · exact Or.inl h
    · exact Or.inr (Or.inl h)
    · exact Or.inr (Or.inr (Or.inl h))
    · exact Or.inr (Or.inr (Or.inr (Or.inl rfl)))
    · exact Or.inr (Or.inr (Or.inr (Or.inr (Or.inl rfl))))
    · exact Or.inr (Or.inr (Or.inr (Or.inr (Or.inr rfl))))
  have h1 : (c == '/') = false := by
    simp only [beq_eq_false_iff_ne, ne_eq]
    intro he
    subst he
    rcases hr with h | h | h | h | h | h <;> revert h <;> decide
  have h2 : (c == '?') = false := by
    simp only [beq_eq_false_iff_ne, ne_eq]
    intro he
    subst he
    rcases hr with h | h | h | h | h | h <;> revert h <;> decide
  have h3 : (c == '#') = false := by
    simp only [beq_eq_false_iff_ne, ne_eq]
    intro he
    subst he
    rcases hr with h | h | h | h | h | h <;> revert h <;> decide
  simp [isAuthEnd, h1, h2, h3]

theorem pathChar_not_queryEnd {c : Char} (h : pathChar c = true) :
    (!(c == '?' || c == '#')) = true := by
  have hne : c.toNat ≠ 63 ∧ c.toNat ≠ 35 := by
    simp only [pathChar, Bool.and_eq_true, Bool.not_eq_true', Bool.or_eq_false_iff,
      beq_eq_false_iff_ne, ne_eq, decide_eq_true_eq] at h
    tauto
  have h1 : (c == '?') = false := by
    simp only [beq_eq_false_iff_ne, ne_eq]
    intro he
    subst he
    exact hne.1 rfl
  have h2 : (c == '#') = false := by
    simp only [beq_eq_false_iff_ne, ne_eq]
    intro he
    subst he
    exact hne.2 rfl
  simp [h1, h2]

theorem takeWhile_all {p : Char → Bool} : ∀ {l : Str}, (∀ c ∈ l, p c = true) →
    l.takeWhile p = l := by
  intro l
  induction l with
  | nil => intro _; rfl
  | cons c cs ih =>
    intro h
    rw [List.takeWhile_cons_of_pos (h c (List.mem_cons_self c cs)),
      ih (fun d hd => h d (List.mem_cons_of_mem c hd))]

theorem splitOnPred_sep_cons {p : Char → Bool} {c : Char} (h : p c = true) (s : Str) :
    splitOnPred p (c :: s) = [] :: splitOnPred p s := by
  simp [splitOnPred, h]

theorem splitOnPred_cons_not {p : Char → Bool} {c : Char} (h : p c = false) (s : Str) :
    splitOnPred p (c :: s) = (c :: (splitOnPred p s).headD []) :: (splitOnPred p s).tail := by
  simp only [splitOnPred, h, Bool.false_eq_true, if_false]
  rcases hh : splitOnPred p s with _ | ⟨w, ws⟩
  · exact absurd hh (splitOnPred_ne_nil p s)
  · simp

theorem splitOnPred_all_not {p : Char → Bool} : ∀ {s : Str}, (∀ c ∈ s, p c = false) →
    splitOnPred p s = [s] := by
  intro s
  induction s with
  | nil => intro _; rfl
  | cons c cs ih =>
    intro h
    rw [splitOnPred_cons_not (h c (List.mem_cons_self c cs)),
      ih (fun d hd => h d (List.mem_cons_of_mem c hd))]
    simp

theorem splitOnPred_append_not {p : Char → Bool} {a : Str} (h : ∀ c ∈ a, p c = false) (b : Str) :
    splitOnPred p (a ++ b) =
      (a ++ (splitOnPred p b).headD []) :: (splitOnPred p b).tail := by
  induction a with
  | nil =>
    simp only [List.nil_append]
    rcases hh : splitOnPred p b with _ | ⟨w, ws⟩
    · exact absurd hh (splitOnPred_ne_nil p b)
    · simp
  | cons c cs ih =>
    rw [List.cons_append, splitOnPred_cons_not (h c (List.mem_cons_self c cs)),
      ih (fun d hd => h d (List.mem_cons_of_mem c hd))]
    simp

/-- The path split of `/wiki/<title>` for a slash-free title. -/
theorem splitSlash_wiki (title : Str) (hslash : '/' ∉ title) :
    splitOnChar '/' ("/wiki/".data ++ title) = [[], "wiki".data, title] := by
  have htitle : ∀ c ∈ title, (c == '/') = false := by
    intro c hc
    exact beq_eq_false_iff_ne.mpr (fun he => hslash (he ▸ hc))
  have hT : splitOnPred (fun c => c == '/') title = [title] := splitOnPred_all_not htitle
  have hform : ("/wiki/".data ++ title : Str) = '/' :: ("wiki".data ++ ('/' :: title)) := rfl
  rw [splitOnChar, hform, splitOnPred_sep_cons (by decide),
    splitOnPred_append_not (by decide), splitOnPred_sep_cons (by decide), hT]
  simp

/-- Computation of the URL model on a canonical wiki-article URL built
from a host-safe `lang` and a path-safe, slash-free, non-dot `title`. -/
theorem parseURL_wiki_form (lang title : Str)
    (hlang : ∀ c ∈ lang, hostChar c = true)
    (htitle : ∀ c ∈ title, pathChar c = true)
    (hslash : '/' ∉ title)
    (hdot : title ≠ ".".data) (hdotdot : title ≠ "..".data) :
    parseURL ("https://".data ++ ((lang ++ ".wikipedia.org".data) ++ ("/wiki/".data ++ title))) =
      some ⟨lowerStr (lang ++ ".wikipedia.org".data), "/wiki/".data ++ title, []⟩ := by
  have hconst1 : ∀ c ∈ (".wikipedia.org".data : Str), (!isAuthEnd c) = true := by decide
  have hconst2 : ∀ c ∈ ("/wiki/".data : Str), (!(c == '?' || c == '#')) = true := by decide
  have hauthAll : ∀ c ∈ (lang ++ ".wikipedia.org".data : Str), (!isAuthEnd c) = true := by
    intro c hc
    rcases List.mem_append.mp hc with h | h
    · exact hostChar_not_authEnd (hlang c h)
    · exact hconst1 c h
  have hpathAll : ∀ c ∈ ("/wiki/".data ++ title : Str), (!(c == '?' || c == '#')) = true := by
    intro c hc
    rcases List.mem_append.mp hc with h | h
    · exact hconst2 c h
    · exact pathChar_not_queryEnd (htitle c h)
  have htake1 : ((lang ++ ".wikipedia.org".data) ++ ("/wiki/".data ++ title) : Str).takeWhile
      (fun c => !isAuthEnd c) = lang ++ ".wikipedia.org".data := by
    rw [List.takeWhile_append_of_pos hauthAll]
    have hform : ("/wiki/".data ++ title : Str) = '/' :: ("wiki/".data ++ title) := rfl
    rw [hform, List.takeWhile_cons_of_neg (by decide), List.append_nil]
  have hne1 : (lang ++ ".wikipedia.org".data : Str).isEmpty = false := by
    cases lang with
    | nil => rfl
    | cons x xs => rfl
  have hall1 : (lang ++ ".wikipedia.org".data : Str).all hostChar = true := by
    have h1 : lang.all hostChar = true := List.all_eq_true.mpr (fun c hc => hlang c hc)
    simp only [List.all_append, h1, Bool.true_and]
    decide
  have htake2 : ("/wiki/".data ++ title : Str).takeWhile (fun c => !(c == '?' || c == '#')) =
      "/wiki/".data ++ title := takeWhile_all hpathAll
  have hne2 : ("/wiki/".data ++ title : Str).isEmpty = false := rfl
  have hall2 : ("/wiki/".data ++ title : Str).all pathChar = true := by
    have h1 : title.all pathChar = true := List.all_eq_true.mpr (fun c hc => htitle c hc)
    simp only [List.all_append, h1, Bool.and_true]
    decide
  have hany : ((splitOnChar '/' ("/wiki/".data ++ title)).any
      (fun seg => seg == ".".data || seg == "..".data)) = false := by
    rw [splitSlash_wiki title hslash]
    simp only [List.any_cons, List.any_nil]
    have e5 : (title == ".".data) = false := beq_eq_false_iff_ne.mpr hdot
    have e6 : (title == "..".data) = false := beq_eq_false_iff_ne.mpr hdotdot
    rw [e5, e6]
    decide
  simp only [parseURL]
  rw [isPrefixList_self_append]
  rw [List.drop_left' (show ("https://".data : Str).length = 8 from rfl)]
  rw [if_pos rfl]
  dsimp only
  rw [htake1, List.drop_left, hne1, hall1, htake2, hne2]
  simp only [Bool.false_eq_true, if_false, Bool.not_true]
  rw [hall2]
  simp only [Bool.not_true, Bool.false_eq_true, if_false]
  rw [show (['/', 'w', 'i', 'k', 'i', '/'] ++ title : Str) = "/wiki/".data ++ title from rfl,
    List.drop_length]
  simp only [List.all_nil, Bool.not_true, Bool.false_eq_true, if_false]
  rw [hany]
  simp

theorem containsSub_wikipedia (lang : Str) :
    containsSub "wikipedia.org".data (lowerStr (lang ++ ".wikipedia.org".data)) = true := by
  have hlow : (List.map Char.toLower ".wikipedia.org".data : Str) =
      '.' :: "wikipedia.org".data := by decide
  show containsSub "wikipedia.org".data
    (List.map Char.toLower (lang ++ ".wikipedia.org".data)) = true
  rw [List.map_append, hlow]
  apply containsSub_of_occurs
  exact ⟨List.map Char.toLower lang ++ ['.'], [], by simp⟩

/-! ## Claim theorems for the URL parser -/

/-- C9: an input that parses as a URL whose hostname does not contain
`wikipedia.org` makes `parseWikiUrl` return null, so `fetchWikiArticle`
falls back to sending the entire input string as the title. -/
theorem c9_non_wikipedia_null (s : Str) (u : UrlObj)
    (hu : parseURL s = some u)
    (hhost : containsSub "wikipedia.org".data u.hostname = false) :
    parseWikiUrl s = none ∧ resolveTitle s = s := by
  have h1 : parseWikiUrl s = none := by
    unfold parseWikiUrl
    rw [hu]
    simp [hhost]
  refine ⟨h1, ?_⟩
  unfold resolveTitle
  rw [h1]

theorem c9_witness :
    parseWikiUrl "https://example.org/page".data = none ∧
    resolveTitle "https://example.org/page".data = "https://example.org/page".data :=
  c9_non_wikipedia_null "https://example.org/page".data
    ⟨"example.org".data, "/page".data, []⟩ (by decide) (by decide)

/-- C4 (counterexample): `parseWikiUrl` does NOT return the `title` query
parameter of every URL that carries one.  `https://example.com/?title=Foo`
parses, carries `title=Foo`, yet yields null, because the hostname check
`wikipedia.org` comes first. -/
theorem c4_counterexample :
    parseURL "https://example.com/?title=Foo".data =
      some ⟨"example.com".data, "/".data, "title=Foo".data⟩ ∧
    getParam "title=Foo".data "title".data = some "Foo".data ∧
    parseWikiUrl "https://example.com/?title=Foo".data = none :=
  ⟨by decide, by decide, by decide⟩

/-- C4 (amended): for a URL that parses with a hostname containing
`wikipedia.org`, whose path does not offer a `wiki` segment followed by a
nonempty segment, and whose query carries a nonempty `title` parameter,
`parseWikiUrl` returns that parameter's value. -/
theorem c4_amended_title_param (s : Str) (u : UrlObj) (t : Str)
    (hu : parseURL s = some u)
    (hhost : containsSub "wikipedia.org".data u.hostname = true)
    (hwiki : ((splitOnChar '/' u.pathname).findIdx (fun p => p == "wiki".data) <
        (splitOnChar '/' u.pathname).length &&
      0 < ((splitOnChar '/' u.pathname).getD
        ((splitOnChar '/' u.pathname).findIdx (fun p => p == "wiki".data) + 1) []).length) = false)
    (ht : getParam u.search "title".data = some t)
    (htlen : 0 < t.length) :
    parseWikiUrl s = some t := by
  unfold parseWikiUrl
  rw [hu]
  dsimp only
  rw [hhost, if_pos rfl, if_neg (by rw [hwiki]; exact Bool.false_ne_true), ht]
  simp [htlen]

theorem c4_witness :
    parseWikiUrl "https://en.wikipedia.org/w/index.php?title=Foo".data = some "Foo".data :=
  c4_amended_title_param "https://en.wikipedia.org/w/index.php?title=Foo".data
    ⟨"en.wikipedia.org".data, "/w/index.php".data, "title=Foo".data⟩ "Foo".data
    (by decide) (by decide) (by decide) (by decide) (by decide)

/-- C5 (counterexample): on the valid article URL
`https://en.wikipedia.org/wiki/OS/2` (title `OS/2`), `parseWikiUrl`
returns `OS` — only the first path segment after `wiki` — not the
percent-decoded title `OS/2`. -/
theorem c5_counterexample :
    parseWikiUrl "https://en.wikipedia.org/wiki/OS/2".data = some "OS".data ∧
    decodeURIComponentA "OS/2".data = some "OS/2".data ∧
    ("OS".data : Str) ≠ "OS/2".data :=
  ⟨by decide, by decide, by decide⟩

/-- C5 (amended): for article URLs `https://<lang>.wikipedia.org/wiki/<title>`
whose `<lang>` consists of host characters and whose `<title>` is a
nonempty, slash-free, non-dot path segment with only single-byte percent
escapes, `parseWikiUrl` returns the title percent-decoded. -/
theorem c5_amended_wiki_url (lang title d : Str)
    (hlang : ∀ c ∈ lang, hostChar c = true)
    (htitle : ∀ c ∈ title, pathChar c = true)
    (hslash : '/' ∉ title)
    (hne : title ≠ [])
    (hdot : title ≠ ".".data) (hdotdot : title ≠ "..".data)
    (hdec : decodeURIComponentA title = some d) :
    parseWikiUrl ("https://".data ++ ((lang ++ ".wikipedia.org".data) ++ ("/wiki/".data ++ title)))
      = some d := by
  unfold parseWikiUrl
  rw [parseURL_wiki_form lang title hlang htitle hslash hdot hdotdot]
  dsimp only
  rw [containsSub_wikipedia, if_pos rfl, splitSlash_wiki title hslash]
  have hfind : (([[], "wiki".data, title] : List Str).findIdx (fun p => p == "wiki".data)) = 1 := by
    have e1 : (([] : Str) == "wiki".data) = false := by decide
    have e2 : (("wiki".data : Str) == "wiki".data) = true := by decide
    simp only [List.findIdx_cons, e1, e2, cond_false, cond_true]
  rw [hfind]
  have hpos : 0 < title.length := List.length_pos.mpr hne
  have hguard : ((1 < ([[], "wiki".data, title] : List Str).length &&
      0 < (([[], "wiki".data, title] : List Str).getD (1 + 1) []).length)) = true := by
    simp [hpos]
  rw [if_pos hguard]
  simpa using hdec

theorem c5_witness :
    parseWikiUrl ("https://".data ++ (("en".data ++ ".wikipedia.org".data) ++
      ("/wiki/".data ++ "Gustave_Eiffel".data))) = some "Gustave_Eiffel".data :=
  c5_amended_wiki_url "en".data "Gustave_Eiffel".data "Gustave_Eiffel".data
    (by decide) (by decide) (by decide) (by decide) (by decide) (by decide) (by decide)

/-! ## Claim theorem for the fetch response handling -/

/-- C6: the response handling of `fetchWikiArticle` fails with the
article-not-found error exactly when the first page of the page-id-keyed
mapping is flagged missing or carries the sentinel id `-1`; otherwise it
returns that page's title, extract and reconstructed canonical URL. -/
theorem c6_fetch_missing_iff (pages : List WikiPage) (page : WikiPage) (rest : List WikiPage)
    (hp : pages = page :: rest) :
    (fetchWikiOutcome pages = some (Except.error ()) ↔
      page.missing = true ∨ page.pageId = "-1".data) ∧
    (¬(page.missing = true ∨ page.pageId = "-1".data) →
      fetchWikiOutcome pages = some (Except.ok
        ⟨page.title, page.extract,
          "https://en.wikipedia.org/wiki/".data ++ encodeURIComponentM page.title⟩)) := by
  subst hp
  have hcond : ((page.missing || page.pageId == "-1".data) = true) ↔
      (page.missing = true ∨ page.pageId = "-1".data) := by
    simp [Bool.or_eq_true, beq_iff_eq]
  constructor
  · constructor
    · intro h
      by_contra hc
      simp only [fetchWikiOutcome] at h
      rw [if_neg (fun hct => hc (hcond.mp hct))] at h
      simp at h
    · intro hm
      simp only [fetchWikiOutcome]
      rw [if_pos (hcond.mpr hm)]
  · intro hc
    simp only [fetchWikiOutcome]
    rw [if_neg (fun hct => hc (hcond.mp hct))]

/-- A concrete missing-page response: sentinel page id `-1`. -/
def exPage : WikiPage := ⟨"-1".data, "Gone".data, [], false⟩

theorem c6_witness :
    (fetchWikiOutcome [exPage] = some (Except.error ()) ↔
      exPage.missing = true ∨ exPage.pageId = "-1".data) ∧
    (¬(exPage.missing = true ∨ exPage.pageId = "-1".data) →
      fetchWikiOutcome [exPage] = some (Except.ok
        ⟨exPage.title, exPage.extract,
          "https://en.wikipedia.org/wiki/".data ++ encodeURIComponentM exPage.title⟩)) :=
  c6_fetch_missing_iff [exPage] exPage [] rfl

/-! ## Claim theorem for the history dedup filter -/

theorem le_fst_of_mem_enumFrom :
    ∀ (l : List HistoryItem) (n : Nat) (p : Nat × HistoryItem),
      p ∈ List.enumFrom n l → n ≤ p.1 := by
  intro l
  induction l with
  | nil => intro n p h; simp at h
  | cons x xs ih =>
    intro n p h
    rw [List.enumFrom_cons] at h
    rcases List.mem_cons.mp h with rfl | h
    · exact Nat.le_refl n
    · exact Nat.le_of_succ_le (ih (n + 1) p h)

theorem pairwise_fst_lt_enumFrom :
    ∀ (l : List HistoryItem) (n : Nat),
      (List.enumFrom n l).Pairwise (fun p q => p.1 < q.1) := by
  intro l
  induction l with
  | nil => intro n; simp
  | cons x xs ih =>
    intro n
    rw [List.enumFrom_cons, List.pairwise_cons]
    exact ⟨fun q hq => Nat.lt_of_lt_of_le (Nat.lt_succ_self n) (le_fst_of_mem_enumFrom xs (n + 1) q hq), ih (n + 1)⟩

/-- C8: after `saveToHistory`, the persisted list has no two entries with
the same `(url, date)` key, and it still contains an entry carrying the
saved record's key — saving an already-present key does not duplicate it. -/
theorem c8_history_dedup (item : HistoryItem) (history : List HistoryItem) :
    (saveToHistory item history).Pairwise (fun x y => keyMatches x y = false) ∧
    ∃ x ∈ saveToHistory item history, keyMatches x item = true := by
  constructor
  · unfold saveToHistory
    rw [List.pairwise_map]
    have hlt : ((item :: history).enum).Pairwise (fun p q => p.1 < q.1) :=
      pairwise_fst_lt_enumFrom (item :: history) 0
    have hltf := hlt.filter
      (fun p => (item :: history).findIdx (fun t => keyMatches t p.2) == p.1)
    apply List.Pairwise.imp_of_mem ?_ hltf
    intro p q hp hq hpq
    have hp' := (List.mem_filter.mp hp).2
    have hq' := (List.mem_filter.mp hq).2
    cases hb : keyMatches p.2 q.2 with
    | false => rfl
    | true =>
      exfalso
      have hkeys : p.2.url = q.2.url ∧ p.2.date = q.2.date := by
        simpa [keyMatches, Bool.and_eq_true, beq_iff_eq] using hb
      have hfun : (fun t => keyMatches t p.2) = (fun t => keyMatches t q.2) := by
        funext t
        simp only [keyMatches, hkeys.1, hkeys.2]
      have hp2 : (item :: history).findIdx (fun t => keyMatches t p.2) = p.1 := by
        simpa using hp'
      have hq2 : (item :: history).findIdx (fun t => keyMatches t q.2) = q.1 := by
        simpa using hq'
      have : p.1 = q.1 := by rw [← hp2, ← hq2, hfun]
      omega
  · refine ⟨item, ?_, by simp [keyMatches]⟩
    unfold saveToHistory
    apply List.mem_map.mpr
    refine ⟨(0, item), ?_, rfl⟩
    apply List.mem_filter.mpr
    constructor
    · simp [List.enum]
    · have hself : keyMatches item item = true := by simp [keyMatches]
      simp [List.findIdx_cons, hself]
